import Mathlib

/-!
# Verification of the PUDL workspace / metadata / record-linkage core

Shallow embedding of the parts of the `pudl` repository touched by the
claims under audit:

* `pudl.metadata.constants` — the four field-type mappings.
* `pudl.workspace.setup` — `set_path_overrides` and `deploy`.
* `pudl.analysis.record_linkage` — the record-linkage engine.  Only the
  package `__init__.py` (module names) is present in the sampled source,
  so the engine itself is modelled from the specification, as marked on
  each definition.
-/

/-! ## `pudl.metadata.constants` field-type mappings

Each Python `dict` is embedded as an association list in its literal
order.  The value types of the non-pandas mappings are embedded as small
inductive types carrying exactly the information the source spells out.
-/

/-- Pandas data type by PUDL field type (`FIELD_DTYPES_PANDAS`); both keys
and values are strings in the source. -/
def FIELD_DTYPES_PANDAS : List (String × String) :=
  [("string", "string"),
   ("number", "float64"),
   ("integer", "Int64"),
   ("boolean", "boolean"),
   ("date", "datetime64[s]"),
   ("datetime", "datetime64[s]"),
   ("year", "datetime64[s]")]

/-- The pyarrow data types used as values of `FIELD_DTYPES_PYARROW`. -/
inductive PyArrowDType where
  | bool_ : PyArrowDType
  | date32 : PyArrowDType
  | timestamp (unit : String) (tz : String) : PyArrowDType
  | int32 : PyArrowDType
  | float32 : PyArrowDType
  | string : PyArrowDType
deriving DecidableEq, Repr

/-- PyArrow data type by PUDL field type (`FIELD_DTYPES_PYARROW`). -/
def FIELD_DTYPES_PYARROW : List (String × PyArrowDType) :=
  [("boolean", PyArrowDType.bool_),
   ("date", PyArrowDType.date32),
   ("datetime", PyArrowDType.timestamp "ms" "UTC"),
   ("integer", PyArrowDType.int32),
   ("number", PyArrowDType.float32),
   ("string", PyArrowDType.string),
   ("year", PyArrowDType.int32)]

/-- The SQLAlchemy column types used as values of `FIELD_DTYPES_SQL`. -/
inductive SqlDType where
  | Boolean : SqlDType
  | Date : SqlDType
  | SqliteDatetime (storage_format : String) : SqlDType
  | Integer : SqlDType
  | Float : SqlDType
  | Text : SqlDType
deriving DecidableEq, Repr

/-- SQLAlchemy column type by PUDL field type (`FIELD_DTYPES_SQL`). -/
def FIELD_DTYPES_SQL : List (String × SqlDType) :=
  [("boolean", SqlDType.Boolean),
   ("date", SqlDType.Date),
   ("datetime", SqlDType.SqliteDatetime
      "%(year)04d-%(month)02d-%(day)02d %(hour)02d:%(minute)02d:%(second)02d"),
   ("integer", SqlDType.Integer),
   ("number", SqlDType.Float),
   ("string", SqlDType.Text),
   ("year", SqlDType.Integer)]

/-- The Python types used as values of `CONSTRAINT_DTYPES`. -/
inductive PyType where
  | str : PyType
  | int : PyType
  | float : PyType
  | bool : PyType
  | date : PyType
  | datetime : PyType
deriving DecidableEq, Repr

/-- Python type for field constraints by PUDL field type
(`CONSTRAINT_DTYPES`). -/
def CONSTRAINT_DTYPES : List (String × PyType) :=
  [("string", PyType.str),
   ("integer", PyType.int),
   ("year", PyType.int),
   ("number", PyType.float),
   ("boolean", PyType.bool),
   ("date", PyType.date),
   ("datetime", PyType.datetime)]

/-! ## `pudl.workspace.setup`

The process environment is modelled as the pair of optional values of the
two variables the module writes; the filesystem relevant to `deploy` is
modelled as a finite map from file name to file content.
-/

/-- The two PUDL path environment variables; `none` means unset. -/
structure Env where
  pudl_input : Option String
  pudl_output : Option String
deriving DecidableEq, Repr

/-- Python truthiness of a `str | None` value: `None` and `""` are falsy. -/
def strTruthy : Option String → Bool
  | none => false
  | some s => !(s == "")

/-- `pudl.workspace.setup.set_path_overrides`: `if input_dir:` sets
`PUDL_INPUT`, `if output_dir:` sets `PUDL_OUTPUT`. -/
def set_path_overrides (input_dir output_dir : Option String) (env : Env) : Env :=
  let env1 := if strTruthy input_dir then { env with pudl_input := input_dir } else env
  if strTruthy output_dir then { env1 with pudl_output := output_dir } else env1

/-- A directory as a finite map from file name to file content. -/
abbrev FileMap := List (String × String)

/-- First-match lookup of a file name in a directory. -/
def lookupFile : FileMap → String → Option String
  | [], _ => none
  | (k, v) :: rest, n => if k = n then some v else lookupFile rest n

/-- Overwrite the content stored under an existing name (in-place update;
never inserts a new entry). -/
def setFile (d : FileMap) (name content : String) : FileMap :=
  d.map (fun p => (p.1, if p.1 = name then content else p.2))

/-- The body of the `for file in files:` loop of
`pudl.workspace.setup.deploy`.  In the source, the `shutil.copy` call is
nested inside the `if pathlib.Path.exists(dest_file):` branch, after the
clobber check, so a copy happens only for an existing destination with
`clobber` set. -/
def deployFile (clobber : Bool) (dest : FileMap) (file : String × String) : FileMap :=
  if (lookupFile dest file.1).isSome then
    if clobber then setFile dest file.1 file.2 else dest
  else dest

/-- `pudl.workspace.setup.deploy`: filter the package resources through
`ignore_files`, then run the copy loop over the destination directory. -/
def deploy (pkg : FileMap) (ignore_files : List String) (clobber : Bool)
    (dest : FileMap) : FileMap :=
  (pkg.filter (fun f => !decide (f.1 ∈ ignore_files))).foldl (deployFile clobber) dest

/-! ## `pudl.analysis.record_linkage` — spec-modelled engine

The sampled source exposes only the module names
(`name_cleaner`, `embed_dataframe`, `eia_ferc1_record_linkage`,
`classify_plants_ferc1`, `link_cross_year`); the module bodies are not
under the sampled tree, so the engine below is modelled from the
specification.  Name strings are embedded as lists of Unicode code
points (`Nat`), so that character-level arithmetic stays in `Nat`.
-/

/-- A name string as its list of Unicode code points. -/
abbrev Name := List Nat

/-- Encode a Lean string literal as a `Name` (used only to spell the
concrete synonym and suffix tables). -/
def enc (s : String) : Name := s.data.map Char.toNat

/-- A canonical character: lowercase ASCII letter or ASCII digit. -/
def isCanon (c : Nat) : Bool :=
  (97 ≤ c && c ≤ 122) || (48 ≤ c && c ≤ 57)

/-- Modelled from the spec: the per-character step of `name_cleaner`
(§4.1).  Non-ASCII (unmappable) code points are dropped, never raise;
letters are lower-cased; every other ASCII character (punctuation,
whitespace) becomes a space, to be collapsed at tokenization. -/
def cleanChar (c : Nat) : Option Nat :=
  if 128 ≤ c then none
  else if isCanon c then some c
  else if 65 ≤ c && c ≤ 90 then some (c + 32)
  else some 32

/-- Character-level pass of the normalizer over a whole name. -/
def cleanChars (s : Name) : Name := s.filterMap cleanChar

/-- Split a cleaned name into its whitespace-separated tokens, collapsing
runs of whitespace (empty tokens are discarded). -/
def tokenize (s : Name) : List Name :=
  (s.splitOn 32).filter (fun t => !t.isEmpty)

/-- Join tokens back with single spaces. -/
def joinTokens (ts : List Name) : Name := [32].intercalate ts

/-- The entity sub-types the normalizer is configured for. -/
inductive EntityType where
  | plant : EntityType
  | utility : EntityType
deriving DecidableEq, Repr

/-- First-match lookup in a token table. -/
def lookupTok : List (Name × Name) → Name → Option Name
  | [], _ => none
  | (k, v) :: rest, t => if k = t then some v else lookupTok rest t

/-- Modelled from the spec: the configurable abbreviation synonym table of
`name_cleaner` (§4.1, e.g. "Assn" → "Association"), per entity type. -/
def synonymTable : EntityType → List (Name × Name)
  | EntityType.plant => [(enc "sta", enc "station"), (enc "gen", enc "generating")]
  | EntityType.utility => [(enc "assn", enc "association"), (enc "dept", enc "department")]

/-- Modelled from the spec: corporate suffix tokens stripped by
`name_cleaner` (§4.1, e.g. "Inc", "LLC", "Co"), per entity type. -/
def corpSuffixes : EntityType → List Name
  | EntityType.plant => [enc "llc", enc "inc", enc "co"]
  | EntityType.utility => [enc "inc", enc "llc", enc "co", enc "ltd"]

/-- Expand one token through the synonym table. -/
def expandToken (et : EntityType) (t : Name) : Name :=
  match lookupTok (synonymTable et) t with
  | some u => u
  | none => t

/-- Token-level pass: expand abbreviations, then drop corporate
suffixes. -/
def normalizeTokens (et : EntityType) (ts : List Name) : List Name :=
  (ts.map (expandToken et)).filter (fun t => decide (t ∉ corpSuffixes et))

namespace name_cleaner

/-- Modelled from the spec: `name_cleaner.normalize` (§4.1) — drop
unmappable characters, lower-case, strip punctuation, collapse whitespace,
expand abbreviations, strip corporate suffixes, rejoin. -/
def normalize (et : EntityType) (s : Name) : Name :=
  joinTokens (normalizeTokens et (tokenize (cleanChars s)))

end name_cleaner

/-! ### Pairwise classifier (`eia_ferc1_record_linkage`, spec §4.3) -/

/-- Modelled from the spec: a scored candidate pair.  `recA`/`recB` are the
two record ids (one per side), `conf` the classifier confidence in `[0,1]`,
`numAgree` the absolute numeric-attribute agreement used by the
tie-break (larger = closer capacity match). -/
structure CandidatePair where
  recA : Nat
  recB : Nat
  conf : ℚ
  numAgree : ℚ
deriving DecidableEq, Repr

/-- Two candidate pairs compete when they claim a common record on either
side. -/
def sharesRecord (p q : CandidatePair) : Bool :=
  decide (p.recA = q.recA) || decide (p.recB = q.recB)

/-- `p` beats `q`: strictly higher confidence, or equal confidence and
strictly larger numeric-attribute agreement (the §4.3 tie-break). -/
def beats (p q : CandidatePair) : Bool :=
  decide (q.conf < p.conf) ||
    (decide (q.conf = p.conf) && decide (q.numAgree < p.numAgree))

/-- Modelled from the spec: the §4.3 decision rule — accept a pair iff its
confidence clears the threshold and it beats every other candidate that
claims one of its records; an unresolved tie therefore yields no match. -/
def acceptPair (thr : ℚ) (cands : List CandidatePair) (p : CandidatePair) : Bool :=
  decide (thr ≤ p.conf) &&
    cands.all (fun q => decide (q = p) || !(sharesRecord p q) || beats p q)

/-- Modelled from the spec: the accepted output of one classification pass
of `eia_ferc1_record_linkage`. -/
def acceptedPairs (thr : ℚ) (cands : List CandidatePair) : List CandidatePair :=
  cands.filter (acceptPair thr cands)

/-! ### Cross-year linker (`link_cross_year`, spec §4.4 and §9)

Per-year clusters are graph nodes `0, …, n-1`; accepted cross-year matches
are undirected edges.  Labels are merged edge by edge: merging rewrites
every occurrence of the second endpoint's label to the first endpoint's
label, a purely functional union-find whose final labels are the
connected components, assigned in the fixed traversal order of the input
(first-node-of-component), as the determinism requirement demands. -/

/-- Merge one accepted edge into the label array: every node carrying the
label of `e.2` is relabelled with the label of `e.1`.  Out-of-range
endpoints leave the labels unchanged. -/
def mergeEdge (labels : List Nat) (e : Nat × Nat) : List Nat :=
  if e.1 < labels.length ∧ e.2 < labels.length then
    labels.map (fun l => if l = labels.getD e.2 0 then labels.getD e.1 0 else l)
  else labels

/-- Modelled from the spec: `link_cross_year` consolidation — starting from
each cluster in its own component (label = own index), fold the accepted
cross-year edges into the label array. -/
def link_cross_year (n : Nat) (edges : List (Nat × Nat)) : List Nat :=
  edges.foldl mergeEdge (List.range n)

/-- The `PersistentEntityId` assigned to cluster `i` (`none` iff `i` is not
a cluster index). -/
def persistentId (n : Nat) (edges : List (Nat × Nat)) (i : Nat) : Option Nat :=
  (link_cross_year n edges)[i]?

/-! ### Per-year cluster formation (`classify_plants_ferc1`, spec §4.3/§8)

Within one year the records `0, …, n-1` and the accepted matches (edges)
determine the `EntityCluster`s: connected components of the accepted-match
graph, listed in first-record order; unmatched records stay in singleton
clusters. -/

/-- Modelled from the spec: the `EntityCluster` partition of one year's
records induced by the accepted matches. -/
def clustersOf (n : Nat) (edges : List (Nat × Nat)) : List (List Nat) :=
  let labels := link_cross_year n edges
  labels.dedup.map (fun L => (List.range n).filter (fun i => decide (labels[i]? = some L)))

/-! ### Linkage orchestrator (`record_linkage` package, spec §4.5) -/

/-- Modelled from the spec: one raw input record (§3 RawRecord). -/
structure RawRecord where
  dataset : String
  localId : Nat
  year : Nat
  rawName : Name
  capacity : ℚ
  state : String
deriving DecidableEq, Repr

/-- Modelled from the spec: the recognized configuration surface (§6). -/
structure Config where
  match_threshold : ℚ
  blocking_keys : List String
  max_year_gap : Nat
  name_synonym_table : List (Name × Name)
deriving DecidableEq, Repr

/-- The blocking attributes the embedder knows how to compute (§4.2). -/
def knownBlockingAttributes : List String :=
  ["state", "capacity_decile", "fuel_type", "prime_mover"]

/-- Configuration validation failures (§7). -/
inductive ConfigError where
  | invalidThreshold : ConfigError
  | unknownBlockingAttribute : ConfigError
deriving DecidableEq, Repr

/-- The final artifact: `(dataset, local id, year) ↦ PersistentEntityId`
rows (§3 LinkageTable). -/
abbrev LinkageTable := List ((String × Nat × Nat) × Nat)

/-- The blocking key of a record under a configuration (§4.2): the state
bucket when blocking on `state` is configured, otherwise a single
catch-all bucket. -/
def blockKey (c : Config) (r : RawRecord) : String :=
  if "state" ∈ c.blocking_keys then r.state else ""

/-- Whether two records may be compared at all (§3 CandidatePair): same
blocking key, and either cross-dataset within one year or cross-year
within the configured year gap. -/
def comparable_pair (c : Config) (a b : RawRecord) : Bool :=
  decide (blockKey c a = blockKey c b) &&
    ((decide (a.year = b.year) && !decide (a.dataset = b.dataset)) ||
      (!decide (a.year = b.year) &&
        decide (a.year ≤ b.year + c.max_year_gap) &&
        decide (b.year ≤ a.year + c.max_year_gap)))

/-- All index pairs `(j, i)` with `j < i < n`, in traversal order. -/
def indexPairs (n : Nat) : List (Nat × Nat) :=
  (List.range n).flatMap (fun i => (List.range i).map (fun j => (j, i)))

/-- Modelled from the spec: the orchestrated pipeline body (§4.5) —
normalize names, generate blocked candidate pairs, score them with the
injected scorer (§9: the trained model is an explicit dependency),
classify, consolidate across years, and materialize the table. -/
def pipeline (scorer : RawRecord → RawRecord → ℚ × ℚ) (c : Config)
    (records : List RawRecord) : LinkageTable :=
  let n := records.length
  let norm := records.map (fun r => { r with rawName := name_cleaner.normalize EntityType.plant r.rawName })
  let cands := (indexPairs n).filterMap (fun ij =>
    match norm[ij.1]?, norm[ij.2]? with
    | some a, some b =>
        if comparable_pair c a b then
          some { recA := ij.1, recB := ij.2,
                 conf := (scorer a b).1, numAgree := (scorer a b).2 }
        else none
    | _, _ => none)
  let accepted := acceptedPairs c.match_threshold cands
  let edges := accepted.map (fun p => (p.recA, p.recB))
  let labels := link_cross_year n edges
  (List.range n).filterMap (fun i =>
    match records[i]?, labels[i]? with
    | some r, some L => some ((r.dataset, r.localId, r.year), L)
    | _, _ => none)

/-- Modelled from the spec: the orchestrator `run` (§4.5, §7) — validate
the configuration first and fail fast, otherwise run the pipeline. -/
def run (scorer : RawRecord → RawRecord → ℚ × ℚ) (c : Config)
    (records : List RawRecord) : Except ConfigError LinkageTable :=
  if decide (c.match_threshold < 0) || decide (1 < c.match_threshold) then
    Except.error ConfigError.invalidThreshold
  else if !(c.blocking_keys.all (fun k => decide (k ∈ knownBlockingAttributes))) then
    Except.error ConfigError.unknownBlockingAttribute
  else
    Except.ok (pipeline scorer c records)

/-! ## Theorems -/

/-- C10: the four field-type mappings `FIELD_DTYPES_PANDAS`,
`FIELD_DTYPES_PYARROW`, `FIELD_DTYPES_SQL` and `CONSTRAINT_DTYPES` all
have exactly the key set
`{string, number, integer, boolean, date, datetime, year}`, so any PUDL
field type translatable to one target type system is translatable to all
four. -/
theorem field_dtype_key_sets_agree :
    (FIELD_DTYPES_PANDAS.map Prod.fst).toFinset
      = (FIELD_DTYPES_PYARROW.map Prod.fst).toFinset
  ∧ (FIELD_DTYPES_PANDAS.map Prod.fst).toFinset
      = (FIELD_DTYPES_SQL.map Prod.fst).toFinset
  ∧ (FIELD_DTYPES_PANDAS.map Prod.fst).toFinset
      = (CONSTRAINT_DTYPES.map Prod.fst).toFinset
  ∧ (FIELD_DTYPES_PANDAS.map Prod.fst).toFinset
      = ({"string", "number", "integer", "boolean", "date", "datetime", "year"} :
          Finset String) := by
  decide

/-- C9: `set_path_overrides` writes `PUDL_INPUT` (resp. `PUDL_OUTPUT`)
exactly when the corresponding argument is a non-empty string; `None` or
`""` leaves the variable unchanged; and each argument affects only its own
variable. -/
theorem set_path_overrides_spec (i o : Option String) (env : Env) :
    ((i = none ∨ i = some "") →
      (set_path_overrides i o env).pudl_input = env.pudl_input)
  ∧ (∀ s, i = some s → s ≠ "" →
      (set_path_overrides i o env).pudl_input = some s)
  ∧ ((o = none ∨ o = some "") →
      (set_path_overrides i o env).pudl_output = env.pudl_output)
  ∧ (∀ s, o = some s → s ≠ "" →
      (set_path_overrides i o env).pudl_output = some s)
  ∧ (set_path_overrides i o env).pudl_input
      = (set_path_overrides i none env).pudl_input
  ∧ (set_path_overrides i o env).pudl_output
      = (set_path_overrides none o env).pudl_output := by
  cases i with
  | none =>
    cases o with
    | none => simp [set_path_overrides, strTruthy]
    | some so =>
      by_cases ho : so = "" <;>
        simp_all [set_path_overrides, strTruthy]
  | some si =>
    cases o with
    | none =>
      by_cases hi : si = "" <;>
        simp_all [set_path_overrides, strTruthy]
    | some so =>
      by_cases hi : si = "" <;> by_cases ho : so = "" <;>
        simp_all [set_path_overrides, strTruthy]

/-- Closed instance of C9 at a concrete input. -/
theorem set_path_overrides_spec_witness :
    (set_path_overrides (some "a") none ⟨none, some "x"⟩).pudl_input = some "a"
  ∧ (set_path_overrides (some "a") none ⟨none, some "x"⟩).pudl_output = some "x" :=
  ⟨(set_path_overrides_spec (some "a") none ⟨none, some "x"⟩).2.1 "a" rfl (by decide),
   (set_path_overrides_spec (some "a") none ⟨none, some "x"⟩).2.2.1 (Or.inl rfl)⟩
theorem lookupFile_setFile (d : FileMap) (n c m : String) :
    lookupFile (setFile d n c) m
      = if m = n then (lookupFile d n).map (fun _ => c) else lookupFile d m := by
  induction d with
  | nil => simp [setFile, lookupFile]
  | cons p rest ih =>
    by_cases h1 : p.1 = m <;> by_cases h2 : m = n <;>
      simp_all [setFile, lookupFile]

theorem lookupFile_deployFile_none (clobber : Bool) (dest : FileMap)
    (p : String × String) (f : String) (h : lookupFile dest f = none) :
    lookupFile (deployFile clobber dest p) f = none := by
  by_cases hex : (lookupFile dest p.1).isSome
  · by_cases hc : clobber
    · simp only [deployFile, hex, hc, if_true]
      rw [lookupFile_setFile]
      by_cases hf : f = p.1
      · subst hf; rw [h] at hex; simp at hex
      · simp [hf, h]
    · simp [deployFile, hex, hc, h]
  · simp [deployFile, hex, h]

theorem lookupFile_deployFile_other (clobber : Bool) (dest : FileMap)
    (p : String × String) (f : String) (h : p.1 ≠ f) :
    lookupFile (deployFile clobber dest p) f = lookupFile dest f := by
  by_cases hex : (lookupFile dest p.1).isSome
  · by_cases hc : clobber
    · simp only [deployFile, hex, hc, if_true]
      rw [lookupFile_setFile, if_neg (fun hf => h hf.symm)]
    · simp [deployFile, hex, hc]
  · simp [deployFile, hex]

theorem deployFile_false (dest : FileMap) (p : String × String) :
    deployFile false dest p = dest := by
  unfold deployFile; split <;> simp

theorem foldl_deployFile_none (files : FileMap) (clobber : Bool) (dest : FileMap)
    (f : String) (h : lookupFile dest f = none) :
    lookupFile (files.foldl (deployFile clobber) dest) f = none := by
  induction files generalizing dest with
  | nil => exact h
  | cons p rest ih => exact ih _ (lookupFile_deployFile_none clobber dest p f h)

theorem foldl_deployFile_untouched (files : FileMap) (clobber : Bool) (dest : FileMap)
    (f : String) (h : ∀ p ∈ files, p.1 ≠ f) :
    lookupFile (files.foldl (deployFile clobber) dest) f = lookupFile dest f := by
  induction files generalizing dest with
  | nil => rfl
  | cons p rest ih =>
    rw [List.foldl_cons, ih _ (fun q hq => h q (List.mem_cons_of_mem p hq)),
      lookupFile_deployFile_other clobber dest p f (h p (List.mem_cons_self p rest))]

/-- C8: `deploy` copies a packaged file over the destination only when a
file of the same name already exists there and `clobber` is true; a file
whose destination does not exist is never created, existing files are
skipped when `clobber` is false, and files named in `ignore_files` are
never touched. -/
theorem deploy_spec (pkg : FileMap) (ignore_files : List String) (dest : FileMap) :
    (deploy pkg ignore_files false dest = dest)
  ∧ (∀ clobber f, lookupFile dest f = none →
      lookupFile (deploy pkg ignore_files clobber dest) f = none)
  ∧ (∀ clobber f, f ∈ ignore_files →
      lookupFile (deploy pkg ignore_files clobber dest) f = lookupFile dest f) := by
  refine ⟨?_, ?_, ?_⟩
  · unfold deploy
    generalize (pkg.filter (fun f => !decide (f.1 ∈ ignore_files))) = files
    induction files generalizing dest with
    | nil => rfl
    | cons p rest ih => rw [List.foldl_cons, deployFile_false, ih]
  · intro clobber f h
    exact foldl_deployFile_none _ clobber dest f h
  · intro clobber f hf
    refine foldl_deployFile_untouched _ clobber dest f ?_
    intro p hp
    rcases List.mem_filter.mp hp with ⟨-, hq⟩
    simp only [Bool.not_eq_true', decide_eq_false_iff_not] at hq
    exact fun hpf => hq (hpf ▸ hf)

/-- Closed instance of C8 at concrete inputs. -/
theorem deploy_spec_witness :
    deploy [("a", "new")] [] false [("a", "old")] = [("a", "old")]
  ∧ lookupFile (deploy [("a", "new"), ("c", "nc")] [] true [("a", "old")]) "c" = none
  ∧ lookupFile (deploy [("b", "nb")] ["b"] true [("a", "old"), ("b", "ob")]) "b"
      = some "ob" :=
  ⟨(deploy_spec [("a", "new")] [] [("a", "old")]).1,
   (deploy_spec [("a", "new"), ("c", "nc")] [] [("a", "old")]).2.1 true "c" (by decide),
   ((deploy_spec [("b", "nb")] ["b"] [("a", "old"), ("b", "ob")]).2.2 true "b"
       (by decide)).trans (by decide)⟩

/-! ### Lemmas about the cross-year linker -/

theorem length_mergeEdge (ls : List Nat) (e : Nat × Nat) :
    (mergeEdge ls e).length = ls.length := by
  unfold mergeEdge; split <;> simp

theorem getElem?_mergeEdge_eq (ls : List Nat) (e : Nat × Nat) (i j : Nat)
    (h : ls[i]? = ls[j]?) : (mergeEdge ls e)[i]? = (mergeEdge ls e)[j]? := by
  unfold mergeEdge
  split
  · rw [List.getElem?_map, List.getElem?_map, h]
  · exact h

theorem foldl_mergeEdge_pres (edges : List (Nat × Nat)) (ls : List Nat) (i j : Nat)
    (h : ls[i]? = ls[j]?) :
    (edges.foldl mergeEdge ls)[i]? = (edges.foldl mergeEdge ls)[j]? := by
  induction edges generalizing ls with
  | nil => exact h
  | cons e rest ih => exact ih _ (getElem?_mergeEdge_eq ls e i j h)

theorem mergeEdge_endpoints (ls : List Nat) (a b : Nat)
    (ha : a < ls.length) (hb : b < ls.length) :
    (mergeEdge ls (a, b))[a]? = (mergeEdge ls (a, b))[b]? := by
  unfold mergeEdge
  rw [if_pos ⟨ha, hb⟩]
  rw [List.getElem?_map, List.getElem?_map,
    List.getElem?_eq_getElem ha, List.getElem?_eq_getElem hb]
  simp only [Option.map_some, List.getD_eq_getElem?_getD,
    List.getElem?_eq_getElem ha, List.getElem?_eq_getElem hb, Option.getD_some]
  by_cases hab : ls[a] = ls[b] <;> simp [hab]

theorem foldl_mergeEdge_edge (edges : List (Nat × Nat)) (a b : Nat) (ls : List Nat)
    (hmem : (a, b) ∈ edges) (ha : a < ls.length) (hb : b < ls.length) :
    (edges.foldl mergeEdge ls)[a]? = (edges.foldl mergeEdge ls)[b]? := by
  induction edges generalizing ls with
  | nil => cases hmem
  | cons e rest ih =>
    rcases List.mem_cons.mp hmem with he | he
    · rw [List.foldl_cons, ← he]
      exact foldl_mergeEdge_pres rest _ a b (mergeEdge_endpoints ls a b ha hb)
    · rw [List.foldl_cons]
      exact ih _ he (by rw [length_mergeEdge]; exact ha)
        (by rw [length_mergeEdge]; exact hb)

theorem foldl_mergeEdge_isolated (edges : List (Nat × Nat)) (i : Nat) (ls : List Nat)
    (hiso : ∀ e ∈ edges, e.1 ≠ i ∧ e.2 ≠ i)
    (hself : ls[i]? = some i)
    (hothers : ∀ j, j ≠ i → ls[j]? ≠ some i) :
    (edges.foldl mergeEdge ls)[i]? = some i
      ∧ ∀ j, j ≠ i → (edges.foldl mergeEdge ls)[j]? ≠ some i := by
  induction edges generalizing ls with
  | nil => exact ⟨hself, hothers⟩
  | cons e rest ih =>
    rw [List.foldl_cons]
    refine ih (mergeEdge ls e)
      (fun q hq => hiso q (List.mem_cons_of_mem e hq)) ?_ ?_
    all_goals
      rcases hiso e (List.mem_cons_self e rest) with ⟨h1, h2⟩
      unfold mergeEdge
    case _ =>
      split
      case isTrue hin =>
        rcases hin with ⟨hlt1, hlt2⟩
        have hlb : ls[e.2]?.getD 0 ≠ i := by
          intro hbad
          refine hothers e.2 h2 ?_
          rw [List.getElem?_eq_getElem hlt2] at hbad ⊢
          rw [Option.getD_some] at hbad
          rw [hbad]
        rw [List.getElem?_map, hself, Option.map_some']
        simp only [List.getD_eq_getElem?_getD, Option.some.injEq]
        rw [if_neg (fun hbad => hlb hbad.symm)]
      case isFalse => exact hself
    case _ =>
      intro j hj
      split
      case isTrue hin =>
        rcases hin with ⟨hlt1, hlt2⟩
        have hla : ls.getD e.1 0 ≠ i := by
          intro hbad
          refine hothers e.1 h1 ?_
          rw [List.getD_eq_getElem?_getD, List.getElem?_eq_getElem hlt1,
            Option.getD_some] at hbad
          rw [List.getElem?_eq_getElem hlt1, hbad]
        clear hself
        rw [List.getElem?_map]
        cases hjv : ls[j]? with
        | none => simp
        | some v =>
          have hv : v ≠ i := by
            intro hbad
            exact hothers j hj (by rw [hjv, hbad])
          simp only [Option.map_some']
          split
          · exact fun hbad => hla (Option.some.inj hbad)
          · exact fun hbad => hv (Option.some.inj hbad)
      case isFalse => exact hothers j hj

/-- C2: `link_cross_year` assigns `PersistentEntityId`s transitively closed
over the accepted cross-year edges — clusters `a`, `b`, `c` with accepted
edges `a↔b` and `b↔c` share one id even without a direct `a↔c` comparison —
and an isolated cluster (touched by no edge) keeps an id shared with no
other cluster. -/
theorem link_cross_year_transitive (n : Nat) (edges : List (Nat × Nat)) :
    (∀ a b c, (a, b) ∈ edges → (b, c) ∈ edges → a < n → b < n → c < n →
      persistentId n edges a = persistentId n edges c)
  ∧ (∀ i, i < n → (∀ e ∈ edges, e.1 ≠ i ∧ e.2 ≠ i) →
      ∀ j, j < n → j ≠ i → persistentId n edges j ≠ persistentId n edges i) := by
  constructor
  · intro a b c hab hbc ha hb hc
    have h1 := foldl_mergeEdge_edge edges a b (List.range n) hab
      (by simpa using ha) (by simpa using hb)
    have h2 := foldl_mergeEdge_edge edges b c (List.range n) hbc
      (by simpa using hb) (by simpa using hc)
    exact h1.trans h2
  · intro i hi hiso j hj hji
    have h := foldl_mergeEdge_isolated edges i (List.range n) hiso
      (by simp [List.getElem?_range, hi])
      (by
        intro k hk
        by_cases hkn : k < n
        · simp [List.getElem?_range, hkn, hk]
        · have hnone : (List.range n)[k]? = none :=
            List.getElem?_eq_none (by simpa using Nat.le_of_not_lt hkn)
          simp [hnone])
    unfold persistentId link_cross_year
    rw [h.1]
    exact h.2 j hji

/-- Closed instance of C2 at a concrete input: chain `0↔1↔2` is one
component, node `3` is isolated and keeps a fresh id. -/
theorem link_cross_year_transitive_witness :
    persistentId 4 [(0, 1), (1, 2)] 0 = persistentId 4 [(0, 1), (1, 2)] 2
  ∧ persistentId 4 [(0, 1), (1, 2)] 1 ≠ persistentId 4 [(0, 1), (1, 2)] 3 :=
  ⟨(link_cross_year_transitive 4 [(0, 1), (1, 2)]).1 0 1 2 (by decide) (by decide)
      (by decide) (by decide) (by decide),
   (link_cross_year_transitive 4 [(0, 1), (1, 2)]).2 3 (by decide)
      (by decide) 1 (by decide) (by decide)⟩

/-! ### Lemmas about per-year cluster formation -/

theorem length_foldl_mergeEdge (edges : List (Nat × Nat)) (ls : List Nat) :
    (edges.foldl mergeEdge ls).length = ls.length := by
  induction edges generalizing ls with
  | nil => rfl
  | cons e rest ih => rw [List.foldl_cons, ih, length_mergeEdge]

theorem length_link_cross_year (n : Nat) (edges : List (Nat × Nat)) :
    (link_cross_year n edges).length = n := by
  rw [link_cross_year, length_foldl_mergeEdge, List.length_range]

theorem filter_range_nil (p : Nat → Bool) (n : Nat)
    (h : ∀ j, j < n → p j = false) : (List.range n).filter p = [] := by
  refine List.filter_eq_nil_iff.mpr ?_
  intro j hj
  rw [h j (List.mem_range.mp hj)]
  simp

theorem filter_range_singleton (p : Nat → Bool) (n i : Nat) (hi : i < n)
    (hp : p i = true) (ho : ∀ j, j < n → j ≠ i → p j = false) :
    (List.range n).filter p = [i] := by
  induction n with
  | zero => cases hi
  | succ m ih =>
    rw [List.range_succ, List.filter_append]
    by_cases him : i = m
    · subst him
      rw [filter_range_nil p i (fun j hj => ho j (Nat.lt_succ_of_lt hj) (Nat.ne_of_lt hj))]
      simp [hp]
    · have hi' : i < m := Nat.lt_of_le_of_ne (Nat.lt_succ_iff.mp hi) him
      rw [ih hi' (fun j hj hji => ho j (Nat.lt_succ_of_lt hj) hji)]
      have hm : p m = false := ho m (Nat.lt_succ_self m) (fun h => him h.symm)
      simp [hm]

/-- C3: for one year's records `0, …, n-1` and accepted matches `edges`,
the produced `EntityCluster`s form an exact partition: a record is among
the input records iff it lies in some cluster, two clusters sharing a
record are the same cluster, and a record with no accepted match forms the
singleton cluster `[i]`. -/
theorem clusters_partition (n : Nat) (edges : List (Nat × Nat)) :
    (∀ i, i < n ↔ ∃ c ∈ clustersOf n edges, i ∈ c)
  ∧ (∀ c1 ∈ clustersOf n edges, ∀ c2 ∈ clustersOf n edges,
      ∀ i, i ∈ c1 → i ∈ c2 → c1 = c2)
  ∧ (∀ i, i < n → (∀ e ∈ edges, e.1 ≠ i ∧ e.2 ≠ i) →
      [i] ∈ clustersOf n edges) := by
  refine ⟨?_, ?_, ?_⟩
  · intro i
    constructor
    · intro hi
      have hlen : i < (link_cross_year n edges).length := by
        rw [length_link_cross_year]; exact hi
      refine ⟨(List.range n).filter
        (fun j => decide ((link_cross_year n edges)[j]?
          = some ((link_cross_year n edges)[i]))), ?_, ?_⟩
      · unfold clustersOf
        refine List.mem_map_of_mem _ ?_
        exact List.mem_dedup.mpr (List.getElem_mem hlen)
      · rw [List.mem_filter]
        refine ⟨List.mem_range.mpr hi, ?_⟩
        rw [List.getElem?_eq_getElem hlen]
        simp
    · intro ⟨c, hc, hic⟩
      unfold clustersOf at hc
      rcases List.mem_map.mp hc with ⟨L, hL, hcL⟩
      rw [← hcL] at hic
      exact List.mem_range.mp (List.mem_filter.mp hic).1
  · intro c1 hc1 c2 hc2 i hi1 hi2
    unfold clustersOf at hc1 hc2
    rcases List.mem_map.mp hc1 with ⟨L1, hL1, hcL1⟩
    rcases List.mem_map.mp hc2 with ⟨L2, hL2, hcL2⟩
    rw [← hcL1] at hi1
    rw [← hcL2] at hi2
    have e1 := of_decide_eq_true (List.mem_filter.mp hi1).2
    have e2 := of_decide_eq_true (List.mem_filter.mp hi2).2
    have : L1 = L2 := Option.some.inj (e1.symm.trans e2)
    rw [← hcL1, ← hcL2, this]
  · intro i hi hiso
    have h := foldl_mergeEdge_isolated edges i (List.range n) hiso
      (by simp [List.getElem?_range, hi])
      (by
        intro k hk
        by_cases hkn : k < n
        · simp [List.getElem?_range, hkn, hk]
        · have hnone : (List.range n)[k]? = none :=
            List.getElem?_eq_none (by simpa using Nat.le_of_not_lt hkn)
          simp [hnone])
    have hself : (link_cross_year n edges)[i]? = some i := h.1
    have hothers := h.2
    unfold clustersOf
    have hfilter : (List.range n).filter
        (fun j => decide ((link_cross_year n edges)[j]? = some i)) = [i] := by
      refine filter_range_singleton _ n i hi (decide_eq_true hself) ?_
      intro j hj hji
      exact decide_eq_false (hothers j hji)
    rw [← hfilter]
    refine List.mem_map_of_mem _ ?_
    refine List.mem_dedup.mpr ?_
    have hlen : i < (link_cross_year n edges).length := by
      rw [length_link_cross_year]; exact hi
    have : (link_cross_year n edges)[i] = i := by
      have := List.getElem?_eq_getElem hlen
      rw [hself] at this
      exact (Option.some.inj this).symm
    rw [← this]
    exact List.getElem_mem hlen

/-- Closed instance of C3 at a concrete input: with records `0,1,2` and the
single accepted match `(0,1)`, the unmatched record `2` forms a singleton
cluster. -/
theorem clusters_partition_witness :
    [2] ∈ clustersOf 3 [(0, 1)] :=
  (clusters_partition 3 [(0, 1)]).2.2 2 (by decide) (by decide)

/-! ### Lemmas about the pairwise classifier -/

theorem sharesRecord_iff (p q : CandidatePair) :
    sharesRecord p q = true ↔ p.recA = q.recA ∨ p.recB = q.recB := by
  simp [sharesRecord]

theorem sharesRecord_symm (p q : CandidatePair) :
    sharesRecord p q = sharesRecord q p := by
  have h1 : (p.recA = q.recA) = (q.recA = p.recA) := propext eq_comm
  have h2 : (p.recB = q.recB) = (q.recB = p.recB) := propext eq_comm
  simp only [sharesRecord, h1, h2]

theorem beats_iff (p q : CandidatePair) :
    beats p q = true ↔
      q.conf < p.conf ∨ (q.conf = p.conf ∧ q.numAgree < p.numAgree) := by
  simp [beats]

theorem beats_asymm (p q : CandidatePair)
    (h1 : beats p q = true) (h2 : beats q p = true) : False := by
  rw [beats_iff] at h1 h2
  rcases h1 with h1 | ⟨h1, h1a⟩ <;> rcases h2 with h2 | ⟨h2, h2a⟩
  · exact absurd h1 (lt_asymm h2)
  · exact absurd h1 (by rw [h2]; exact lt_irrefl _)
  · exact absurd h2 (by rw [h1]; exact lt_irrefl _)
  · exact absurd h1a (lt_asymm h2a)

theorem acceptPair_iff (thr : ℚ) (cands : List CandidatePair) (p : CandidatePair) :
    acceptPair thr cands p = true ↔
      thr ≤ p.conf ∧
        ∀ q ∈ cands, q ≠ p → sharesRecord p q = true → beats p q = true := by
  unfold acceptPair
  rw [Bool.and_eq_true, decide_eq_true_iff, List.all_eq_true]
  constructor
  · rintro ⟨h1, h2⟩
    refine ⟨h1, ?_⟩
    intro q hq hne hs
    have hb := h2 q hq
    simp only [Bool.or_eq_true, decide_eq_true_iff, Bool.not_eq_true'] at hb
    rcases hb with (hb | hb) | hb
    · exact absurd hb hne
    · rw [hs] at hb; cases hb
    · exact hb
  · rintro ⟨h1, h2⟩
    refine ⟨h1, ?_⟩
    intro q hq
    simp only [Bool.or_eq_true, decide_eq_true_iff, Bool.not_eq_true']
    by_cases hqp : q = p
    · exact Or.inl (Or.inl hqp)
    · by_cases hs : sharesRecord p q = true
      · exact Or.inr (h2 q hq hqp hs)
      · exact Or.inl (Or.inr (Bool.not_eq_true _ ▸ hs))

theorem mem_acceptedPairs (thr : ℚ) (cands : List CandidatePair) (p : CandidatePair) :
    p ∈ acceptedPairs thr cands ↔ p ∈ cands ∧ acceptPair thr cands p = true :=
  List.mem_filter

/-- C4: in one classification pass, matching is one-to-one — no two
accepted pairs share a record on either side — and an accepted pair clears
the configured threshold and scores at least as high as every other
candidate claiming one of its records. -/
theorem classifier_one_to_one (thr : ℚ) (cands : List CandidatePair) :
    (∀ p ∈ acceptedPairs thr cands, ∀ q ∈ acceptedPairs thr cands, p ≠ q →
      p.recA ≠ q.recA ∧ p.recB ≠ q.recB)
  ∧ (∀ p ∈ acceptedPairs thr cands, thr ≤ p.conf ∧
      ∀ q ∈ cands, q ≠ p → (q.recA = p.recA ∨ q.recB = p.recB) →
        q.conf ≤ p.conf) := by
  constructor
  · intro p hp q hq hne
    rcases (mem_acceptedPairs thr cands p).mp hp with ⟨hpc, hpa⟩
    rcases (mem_acceptedPairs thr cands q).mp hq with ⟨hqc, hqa⟩
    rw [acceptPair_iff] at hpa hqa
    constructor
    · intro hA
      have hs : sharesRecord p q = true := (sharesRecord_iff p q).mpr (Or.inl hA)
      have hs' : sharesRecord q p = true := by rw [← sharesRecord_symm]; exact hs
      exact beats_asymm p q (hpa.2 q hqc (Ne.symm hne) hs) (hqa.2 p hpc hne hs')
    · intro hB
      have hs : sharesRecord p q = true := (sharesRecord_iff p q).mpr (Or.inr hB)
      have hs' : sharesRecord q p = true := by rw [← sharesRecord_symm]; exact hs
      exact beats_asymm p q (hpa.2 q hqc (Ne.symm hne) hs) (hqa.2 p hpc hne hs')
  · intro p hp
    rcases (mem_acceptedPairs thr cands p).mp hp with ⟨hpc, hpa⟩
    rw [acceptPair_iff] at hpa
    refine ⟨hpa.1, ?_⟩
    intro q hq hne hshare
    have hs : sharesRecord p q = true := by
      rw [sharesRecord_iff]
      rcases hshare with h | h
      · exact Or.inl h.symm
      · exact Or.inr h.symm
    have hb := hpa.2 q hq hne hs
    rw [beats_iff] at hb
    rcases hb with hb | ⟨hb, -⟩
    · exact le_of_lt hb
    · exact le_of_eq hb

/-- Closed instance of C4 at a concrete input: two accepted pairs share no
record on either side. -/
theorem classifier_one_to_one_witness :
    ({ recA := 1, recB := 1, conf := 1, numAgree := 0 } : CandidatePair).recA
        ≠ ({ recA := 2, recB := 2, conf := 1, numAgree := 0 } : CandidatePair).recA
  ∧ ({ recA := 1, recB := 1, conf := 1, numAgree := 0 } : CandidatePair).recB
        ≠ ({ recA := 2, recB := 2, conf := 1, numAgree := 0 } : CandidatePair).recB :=
  (classifier_one_to_one 0
      [⟨1, 1, 1, 0⟩, ⟨2, 2, 1, 0⟩]).1
    ⟨1, 1, 1, 0⟩ (by decide) ⟨2, 2, 1, 0⟩ (by decide) (by decide)

/-- C7: ties in the classifier — when two candidates for one record stand
at equal top confidence, the pair with the strictly larger absolute
numeric-attribute agreement wins (and is the accepted one, its rival
rejected); when the agreement also ties, the record receives no match at
all: no accepted pair claims it.  The outcome is an ordinary (non-error)
result of the total classification function. -/
theorem classifier_tie_break (thr : ℚ) (cands : List CandidatePair) :
    (∀ p q, p ∈ cands → q ∈ cands → q ≠ p →
      (q.recA = p.recA ∨ q.recB = p.recB) → q.conf = p.conf →
      q.numAgree < p.numAgree → thr ≤ p.conf →
      (∀ r ∈ cands, r ≠ p → (r.recA = p.recA ∨ r.recB = p.recB) →
        beats p r = true) →
      p ∈ acceptedPairs thr cands ∧ q ∉ acceptedPairs thr cands)
  ∧ (∀ rec p q, p ∈ cands → q ∈ cands → p ≠ q →
      p.recA = rec → q.recA = rec → p.conf = q.conf → p.numAgree = q.numAgree →
      (∀ r ∈ cands, r.recA = rec → r.conf ≤ p.conf) →
      (∀ r ∈ cands, r.recA = rec → r.conf = p.conf → r.numAgree ≤ p.numAgree) →
      ∀ r ∈ acceptedPairs thr cands, r.recA ≠ rec) := by
  constructor
  · intro p q hp hq hqp hshare hconf hagree hthr hbest
    constructor
    · refine (mem_acceptedPairs thr cands p).mpr ⟨hp, ?_⟩
      rw [acceptPair_iff]
      refine ⟨hthr, ?_⟩
      intro r hr hrp hs
      refine hbest r hr hrp ?_
      rcases (sharesRecord_iff p r).mp hs with h | h
      · exact Or.inl h.symm
      · exact Or.inr h.symm
    · intro hqacc
      rcases (mem_acceptedPairs thr cands q).mp hqacc with ⟨-, hqa⟩
      rw [acceptPair_iff] at hqa
      have hs : sharesRecord q p = true := by
        rw [sharesRecord_iff]
        exact hshare
      have hb := hqa.2 p hp (fun h => hqp h.symm) hs
      rw [beats_iff] at hb
      rcases hb with hb | ⟨hb, hba⟩
      · rw [hconf] at hb
        exact lt_irrefl _ hb
      · exact lt_asymm hagree hba
  · intro rec p q hp hq hne hpA hqA hconf hagree htop htopA r hracc hrA
    rcases (mem_acceptedPairs thr cands r).mp hracc with ⟨hrc, hra⟩
    rw [acceptPair_iff] at hra
    by_cases hrp : r = p
    · subst hrp
      have hs : sharesRecord r q = true := by
        rw [sharesRecord_iff]
        exact Or.inl (hrA.trans hqA.symm)
      have hb := hra.2 q hq (Ne.symm hne) hs
      rw [beats_iff] at hb
      rcases hb with hb | ⟨-, hba⟩
      · rw [hconf] at hb
        exact lt_irrefl _ hb
      · rw [hagree] at hba
        exact lt_irrefl _ hba
    · have hs : sharesRecord r p = true := by
        rw [sharesRecord_iff]
        exact Or.inl (hrA.trans hpA.symm)
      have hb := hra.2 p hp (fun h => hrp h.symm) hs
      rw [beats_iff] at hb
      rcases hb with hb | ⟨hb, hba⟩
      · exact absurd hb (not_lt_of_le (htop r hrc hrA))
      · exact absurd hba (not_lt_of_le (htopA r hrc hrA hb.symm))

/-- Closed instance of C7 at concrete inputs: a conf-tie broken by larger
numeric agreement accepts the closer pair and rejects the other, and a
full tie leaves an accepted pair only for unrelated records. -/
theorem classifier_tie_break_witness :
    ((⟨1, 10, 1, 2⟩ : CandidatePair) ∈
        acceptedPairs 0 [⟨1, 10, 1, 2⟩, ⟨1, 11, 1, 1⟩]
      ∧ (⟨1, 11, 1, 1⟩ : CandidatePair) ∉
        acceptedPairs 0 [⟨1, 10, 1, 2⟩, ⟨1, 11, 1, 1⟩])
  ∧ ({ recA := 2, recB := 12, conf := 1, numAgree := 5 } : CandidatePair).recA ≠ 1 :=
  ⟨(classifier_tie_break 0 [⟨1, 10, 1, 2⟩, ⟨1, 11, 1, 1⟩]).1
      ⟨1, 10, 1, 2⟩ ⟨1, 11, 1, 1⟩ (by decide) (by decide) (by decide)
      (by decide) (by decide) (by decide) (by decide) (by decide),
   (classifier_tie_break 0 [⟨1, 10, 1, 1⟩, ⟨1, 11, 1, 1⟩, ⟨2, 12, 1, 5⟩]).2
      1 ⟨1, 10, 1, 1⟩ ⟨1, 11, 1, 1⟩ (by decide) (by decide) (by decide)
      (by decide) (by decide) (by decide) (by decide) (by decide) (by decide)
      ⟨2, 12, 1, 5⟩ (by decide)⟩

/-! ### Lemmas about the name normalizer -/

theorem cleanChar_canon (c : Nat) (h : isCanon c = true) : cleanChar c = some c := by
  have hb : (97 ≤ c ∧ c ≤ 122) ∨ (48 ≤ c ∧ c ≤ 57) := by
    simpa [isCanon, Bool.or_eq_true, Bool.and_eq_true] using h
  unfold cleanChar
  rw [if_neg (by omega), if_pos h]

theorem cleanChar_space : cleanChar 32 = some 32 := by decide

theorem cleanChar_unmappable (c : Nat) (h : 128 ≤ c) : cleanChar c = none := by
  unfold cleanChar
  rw [if_pos h]

theorem mem_cleanChars (s : Name) (c : Nat) (h : c ∈ cleanChars s) :
    isCanon c = true ∨ c = 32 := by
  unfold cleanChars at h
  rcases List.mem_filterMap.mp h with ⟨a, ha, hca⟩
  unfold cleanChar at hca
  by_cases h1 : 128 ≤ a
  · rw [if_pos h1] at hca
    cases hca
  · rw [if_neg h1] at hca
    by_cases h2 : isCanon a = true
    · rw [if_pos h2] at hca
      exact Or.inl ((Option.some.inj hca) ▸ h2)
    · rw [if_neg h2] at hca
      by_cases h3 : (65 ≤ a && a ≤ 90) = true
      · rw [if_pos h3] at hca
        have hac := Option.some.inj hca
        have hb : 65 ≤ a ∧ a ≤ 90 := by simpa [Bool.and_eq_true] using h3
        left
        rw [← hac]
        simp only [isCanon, Bool.or_eq_true, Bool.and_eq_true, decide_eq_true_eq]
        omega
      · rw [if_neg h3] at hca
        exact Or.inr (Option.some.inj hca).symm

theorem filterMap_id_of_some (f : Nat → Option Nat) (s : List Nat)
    (h : ∀ c ∈ s, f c = some c) : s.filterMap f = s := by
  induction s with
  | nil => rfl
  | cons a t ih =>
    rw [List.filterMap_cons, h a (List.mem_cons_self a t),
      ih (fun c hc => h c (List.mem_cons_of_mem a hc))]

theorem splitOn_chars (s : Name) :
    ∀ t ∈ s.splitOn 32, ∀ c ∈ t, c ∈ s ∧ c ≠ 32 := by
  induction s with
  | nil =>
    intro t ht c hc
    rw [List.splitOn_nil] at ht
    simp only [List.mem_singleton] at ht
    subst ht
    cases hc
  | cons a s ih =>
    intro t ht c hc
    rw [show (a :: s).splitOn 32 = (a :: s).splitOnP (fun x => x == 32) from rfl,
      List.splitOnP_cons] at ht
    by_cases ha : a = 32
    · rw [if_pos (by simp [ha])] at ht
      rcases List.mem_cons.mp ht with h | h
      · subst h
        cases hc
      · rcases ih t h c hc with ⟨h1, h2⟩
        exact ⟨List.mem_cons_of_mem a h1, h2⟩
    · rw [if_neg (by simp [ha])] at ht
      obtain ⟨h0, tl, hL⟩ : ∃ h0 tl, s.splitOn 32 = h0 :: tl := by
        cases hsp2 : s.splitOn 32 with
        | nil => exact absurd hsp2 (List.splitOnP_ne_nil _ _)
        | cons h0 tl => exact ⟨h0, tl, rfl⟩
      rw [show s.splitOnP (fun x => x == 32) = s.splitOn 32 from rfl, hL,
        List.modifyHead_cons h0 tl] at ht
      rcases List.mem_cons.mp ht with h | h
      · subst h
        rcases List.mem_cons.mp hc with h2 | h2
        · subst h2
          exact ⟨List.mem_cons_self c s, ha⟩
        · rcases ih h0 (hL ▸ List.mem_cons_self h0 tl) c h2 with ⟨h3, h4⟩
          exact ⟨List.mem_cons_of_mem a h3, h4⟩
      · rcases ih t (hL ▸ List.mem_cons_of_mem h0 h) c hc with ⟨h3, h4⟩
        exact ⟨List.mem_cons_of_mem a h3, h4⟩

theorem mem_tokenize (s : Name) (t : Name) (ht : t ∈ tokenize s) :
    t ≠ [] ∧ ∀ c ∈ t, c ∈ s ∧ c ≠ 32 := by
  unfold tokenize at ht
  rcases List.mem_filter.mp ht with ⟨hsp, hne⟩
  refine ⟨?_, fun c hc => splitOn_chars s t hsp c hc⟩
  simpa using hne

theorem tokenize_joinTokens (ts : List Name) (hne : ∀ t ∈ ts, t ≠ [])
    (hns : ∀ t ∈ ts, 32 ∉ t) : tokenize (joinTokens ts) = ts := by
  cases ts with
  | nil => rfl
  | cons t ts2 =>
    unfold tokenize joinTokens
    rw [List.splitOn_intercalate (t :: ts2) 32 hns (by simp)]
    refine List.filter_eq_self.mpr ?_
    intro a ha
    simpa using hne a ha

theorem lookupTok_mem (tab : List (Name × Name)) (t u : Name)
    (h : lookupTok tab t = some u) : (t, u) ∈ tab := by
  induction tab with
  | nil => cases h
  | cons p rest ih =>
    obtain ⟨k, v⟩ := p
    unfold lookupTok at h
    split_ifs at h with hp
    · have h2 : v = u := Option.some.inj h
      subst h2
      subst hp
      exact List.mem_cons_self _ _
    · exact List.mem_cons_of_mem _ (ih h)

theorem synonymTable_ok (et : EntityType) :
    ∀ p ∈ synonymTable et, p.2 ≠ [] ∧ (∀ c ∈ p.2, isCanon c = true)
      ∧ lookupTok (synonymTable et) p.2 = none := by
  cases et <;> decide

theorem expandToken_ne_nil (et : EntityType) (t : Name) (h : t ≠ []) :
    expandToken et t ≠ [] := by
  unfold expandToken
  cases hl : lookupTok (synonymTable et) t with
  | none => exact h
  | some u => exact ((synonymTable_ok et) (t, u) (lookupTok_mem _ _ _ hl)).1

theorem expandToken_canon (et : EntityType) (t : Name)
    (h : ∀ c ∈ t, isCanon c = true) :
    ∀ c ∈ expandToken et t, isCanon c = true := by
  unfold expandToken
  cases hl : lookupTok (synonymTable et) t with
  | none => exact h
  | some u => exact ((synonymTable_ok et) (t, u) (lookupTok_mem _ _ _ hl)).2.1

theorem expandToken_idem (et : EntityType) (t : Name) :
    expandToken et (expandToken et t) = expandToken et t := by
  cases hl : lookupTok (synonymTable et) t with
  | none =>
    have h1 : expandToken et t = t := by unfold expandToken; rw [hl]
    rw [h1]
    exact h1
  | some u =>
    have h1 : expandToken et t = u := by unfold expandToken; rw [hl]
    have h2 : lookupTok (synonymTable et) u = none :=
      ((synonymTable_ok et) (t, u) (lookupTok_mem _ _ _ hl)).2.2
    rw [h1]
    unfold expandToken
    rw [h2]

theorem map_id_of_fixed (f : Name → Name) (l : List Name)
    (h : ∀ t ∈ l, f t = t) : l.map f = l := by
  induction l with
  | nil => rfl
  | cons a t ih =>
    rw [List.map_cons, h a (List.mem_cons_self a t),
      ih (fun b hb => h b (List.mem_cons_of_mem a hb))]

theorem mem_intersperse_cases (sep : Name) (ts : List Name) (l : Name)
    (h : l ∈ ts.intersperse sep) : l = sep ∨ l ∈ ts := by
  induction ts with
  | nil => simp at h
  | cons b t ih =>
    cases t with
    | nil =>
      simp only [List.intersperse_singleton, List.mem_singleton] at h
      exact Or.inr (by simp [h])
    | cons c u =>
      rw [List.intersperse_cons_cons] at h
      rcases List.mem_cons.mp h with h1 | h1
      · exact Or.inr (by simp [h1])
      · rcases List.mem_cons.mp h1 with h2 | h2
        · exact Or.inl h2
        · rcases ih h2 with h3 | h3
          · exact Or.inl h3
          · exact Or.inr (List.mem_cons_of_mem b h3)

theorem mem_joinTokens (ts : List Name) (c : Nat) (h : c ∈ joinTokens ts) :
    c = 32 ∨ ∃ t ∈ ts, c ∈ t := by
  unfold joinTokens at h
  simp only [List.intercalate] at h
  rcases List.mem_flatten.mp h with ⟨l, hl, hcl⟩
  rcases mem_intersperse_cases [32] ts l hl with h1 | h1
  · subst h1
    left
    simpa using hcl
  · right
    exact ⟨l, h1, hcl⟩

theorem normalizeTokens_mem (et : EntityType) (ts : List Name) (u : Name)
    (hu : u ∈ normalizeTokens et ts) :
    (∃ t ∈ ts, u = expandToken et t) ∧ u ∉ corpSuffixes et := by
  unfold normalizeTokens at hu
  rcases List.mem_filter.mp hu with ⟨hm, hf⟩
  rcases List.mem_map.mp hm with ⟨t, ht, hut⟩
  exact ⟨⟨t, ht, hut.symm⟩, of_decide_eq_true hf⟩

theorem normalizeTokens_fixed (et : EntityType) (ts : List Name)
    (hfix : ∀ u ∈ ts, expandToken et u = u)
    (hns : ∀ u ∈ ts, u ∉ corpSuffixes et) : normalizeTokens et ts = ts := by
  unfold normalizeTokens
  rw [map_id_of_fixed _ ts hfix]
  exact List.filter_eq_self.mpr (fun t ht => decide_eq_true (hns t ht))

/-- C5: `name_cleaner.normalize` is idempotent for every entity type and
every input (the empty and pure-punctuation strings included), and an
unmappable (non-ASCII) code point anywhere in the input is silently
dropped — removing it does not change the result, and no error is
possible since the function is total. -/
theorem normalize_idempotent (et : EntityType) (x : Name) :
    name_cleaner.normalize et (name_cleaner.normalize et x)
      = name_cleaner.normalize et x
  ∧ ∀ c, 128 ≤ c → ∀ x1 x2 : Name,
      name_cleaner.normalize et (x1 ++ c :: x2)
        = name_cleaner.normalize et (x1 ++ x2) := by
  constructor
  · unfold name_cleaner.normalize
    set ts := normalizeTokens et (tokenize (cleanChars x)) with hts
    have htok : ∀ t ∈ tokenize (cleanChars x), t ≠ [] ∧ ∀ c ∈ t, isCanon c = true := by
      intro t ht
      rcases mem_tokenize (cleanChars x) t ht with ⟨hne, hchars⟩
      refine ⟨hne, fun c hc => ?_⟩
      rcases hchars c hc with ⟨hcs, hc32⟩
      rcases mem_cleanChars x c hcs with h | h
      · exact h
      · exact absurd h hc32
    have hcanon : ∀ t ∈ ts, ∀ c ∈ t, isCanon c = true := by
      intro t ht
      rcases normalizeTokens_mem et _ t ht with ⟨⟨t0, ht0, heq⟩, -⟩
      rw [heq]
      exact expandToken_canon et t0 (htok t0 ht0).2
    have hne : ∀ t ∈ ts, t ≠ [] := by
      intro t ht
      rcases normalizeTokens_mem et _ t ht with ⟨⟨t0, ht0, heq⟩, -⟩
      rw [heq]
      exact expandToken_ne_nil et t0 (htok t0 ht0).1
    have hfix : ∀ t ∈ ts, expandToken et t = t := by
      intro t ht
      rcases normalizeTokens_mem et _ t ht with ⟨⟨t0, ht0, heq⟩, -⟩
      rw [heq]
      exact expandToken_idem et t0
    have hnsuf : ∀ t ∈ ts, t ∉ corpSuffixes et := fun t ht =>
      (normalizeTokens_mem et _ t ht).2
    have hns32 : ∀ t ∈ ts, 32 ∉ t := by
      intro t ht hc
      exact absurd (hcanon t ht 32 hc) (by decide)
    have h1 : cleanChars (joinTokens ts) = joinTokens ts := by
      apply filterMap_id_of_some
      intro c hc
      rcases mem_joinTokens ts c hc with h | ⟨t, ht, hct⟩
      · rw [h]
        exact cleanChar_space
      · exact cleanChar_canon c (hcanon t ht c hct)
    rw [h1, tokenize_joinTokens ts hne hns32, normalizeTokens_fixed et ts hfix hnsuf]
  · intro c hc x1 x2
    unfold name_cleaner.normalize
    have h2 : cleanChars (x1 ++ c :: x2) = cleanChars (x1 ++ x2) := by
      unfold cleanChars
      simp only [List.filterMap_append, List.filterMap_cons, cleanChar_unmappable c hc]
    rw [h2]

/-- Closed instance of C5 at concrete inputs, the pure-punctuation string
`"-!?"` (codes 45, 33, 63) among them. -/
theorem normalize_idempotent_witness :
    name_cleaner.normalize EntityType.utility
        (name_cleaner.normalize EntityType.utility [45, 33, 63])
      = name_cleaner.normalize EntityType.utility [45, 33, 63]
  ∧ name_cleaner.normalize EntityType.plant ([99, 111] ++ 955 :: [])
      = name_cleaner.normalize EntityType.plant ([99, 111] ++ []) :=
  ⟨(normalize_idempotent EntityType.utility [45, 33, 63]).1,
   (normalize_idempotent EntityType.plant [99, 111]).2 955 (by decide) [99, 111] []⟩

/-! ### Orchestrator theorems -/

/-- C1: the orchestrator `run` is deterministic — two runs over identical
raw input records and identical configuration (with the same injected
scorer) produce identical results, the consolidated `PersistentEntityId`
assignment and materialized `LinkageTable` included; the pipeline is a
pure function of its inputs, with ids assigned in the fixed traversal
order of the input list. -/
theorem run_deterministic (scorer : RawRecord → RawRecord → ℚ × ℚ)
    (c1 c2 : Config) (in1 in2 : List RawRecord)
    (hc : c1 = c2) (hin : in1 = in2) :
    run scorer c1 in1 = run scorer c2 in2 := by
  rw [hc, hin]

/-- Closed instance of C1 at a concrete input. -/
theorem run_deterministic_witness :
    run (fun _ _ => (1, 0)) ⟨mkRat 1 2, ["state"], 1, []⟩
        [⟨"eia", 1, 2020, enc "Riverside Power Co", 500, "CA"⟩]
      = run (fun _ _ => (1, 0)) ⟨mkRat 1 2, ["state"], 1, []⟩
        [⟨"eia", 1, 2020, enc "Riverside Power Co", 500, "CA"⟩] :=
  run_deterministic (fun _ _ => (1, 0)) _ _ _ _ rfl rfl

/-- C6: a configuration whose `match_threshold` lies outside `[0, 1]` or
that names an unknown blocking attribute makes `run` fail at start with a
configuration error — no `LinkageTable` is produced, and by the definition
of `run` the validation guards precede the pipeline. -/
theorem run_validates_config (scorer : RawRecord → RawRecord → ℚ × ℚ)
    (c : Config) (records : List RawRecord)
    (h : c.match_threshold < 0 ∨ 1 < c.match_threshold ∨
      ∃ k ∈ c.blocking_keys, k ∉ knownBlockingAttributes) :
    ∃ e, run scorer c records = Except.error e := by
  by_cases hthr :
      (decide (c.match_threshold < 0) || decide (1 < c.match_threshold)) = true
  · refine ⟨ConfigError.invalidThreshold, ?_⟩
    unfold run
    rw [if_pos hthr]
  · rcases h with h | h | ⟨k, hk, hkn⟩
    · exact absurd (by simp [h]) hthr
    · exact absurd (by simp [h]) hthr
    · refine ⟨ConfigError.unknownBlockingAttribute, ?_⟩
      have hall : (c.blocking_keys.all fun k => decide (k ∈ knownBlockingAttributes))
          = false := by
        cases hba : (c.blocking_keys.all fun k => decide (k ∈ knownBlockingAttributes)) with
        | true => exact absurd (of_decide_eq_true (List.all_eq_true.mp hba k hk)) hkn
        | false => rfl
      unfold run
      rw [if_neg hthr, if_pos (by rw [hall]; rfl)]

/-- Closed instance of C6: a threshold of `2` makes `run` fail with an
error on any input. -/
theorem run_validates_config_witness :
    ∃ e, run (fun _ _ => (1, 0)) ⟨2, ["state"], 1, []⟩
        [⟨"eia", 1, 2020, enc "Riverside Power Co", 500, "CA"⟩]
      = Except.error e :=
  run_validates_config (fun _ _ => (1, 0)) ⟨2, ["state"], 1, []⟩
    [⟨"eia", 1, 2020, enc "Riverside Power Co", 500, "CA"⟩]
    (Or.inr (Or.inl (by decide)))
